import Mathlib

/-!
Verification of the fixed-step ODE solver in `final.py`.

The solver works on numpy arrays whose entries are real or complex
floating-point numbers.  We embed the numeric values as Gaussian
rationals (pairs of rationals, real and imaginary part), so that all
stepper arithmetic is exact and the real/complex numeric kind of a value
is observable as the vanishing of its imaginary part.  A numpy array is
embedded as a `List` of such values; the elementwise numpy operations
`+`, `-`, scalar `*` and scalar `/` become `zipWith`/`map` operations.
Scalar initial conditions are normalized by the constructor
(`y0.reshape(1)`) to one-element arrays, so states are always lists.
-/

namespace ODE

/-- A numpy numeric value, embedded as a Gaussian rational: the first
component is the real part, the second the imaginary part. -/
abbrev GQ : Type := ℚ × ℚ

/-- Elementwise addition of two numpy arrays. -/
def vadd (a b : List GQ) : List GQ := List.zipWith (· + ·) a b

/-- Elementwise subtraction of two numpy arrays. -/
def vsub (a b : List GQ) : List GQ := List.zipWith (· - ·) a b

/-- Multiplication of a numpy array by a real scalar (time values and
step sizes in the solver are real). -/
def vsmul (c : ℚ) (v : List GQ) : List GQ := v.map (fun z => c • z)

/-- Division of a numpy array by a real scalar. -/
def sdiv (v : List GQ) (c : ℚ) : List GQ := v.map (fun z => c⁻¹ • z)

/-- A state is real-kind when every component has zero imaginary part. -/
def real_state (s : List GQ) : Prop := ∀ z ∈ s, z.2 = 0

/-- Embedding of `ODESolver._step_euler`:
`return y + dt * np.array(self.f(t, y))`. -/
def step_euler (f : ℚ → List GQ → List GQ) (t : ℚ) (y : List GQ) (dt : ℚ) :
    List GQ :=
  vadd y (vsmul dt (f t y))

/-- Embedding of `ODESolver._step_rk4`:
`k1 = f(t, y)`, `k2 = f(t + dt/2, y + dt*k1/2)`,
`k3 = f(t + dt/2, y + dt*k2/2)`, `k4 = f(t + dt, y + dt*k3)`,
`return y + (dt/6)*(k1 + 2*k2 + 2*k3 + k4)`. -/
def step_rk4 (f : ℚ → List GQ → List GQ) (t : ℚ) (y : List GQ) (dt : ℚ) :
    List GQ :=
  let k1 := f t y
  let k2 := f (t + dt/2) (vadd y (sdiv (vsmul dt k1) 2))
  let k3 := f (t + dt/2) (vadd y (sdiv (vsmul dt k2) 2))
  let k4 := f (t + dt) (vadd y (vsmul dt k3))
  vadd y (vsmul (dt/6) (vadd (vadd (vadd k1 (vsmul 2 k2)) (vsmul 2 k3)) k4))

/-- Instrumented evaluation of the derivative function: returns the
value together with an incremented evaluation counter.  Used to count
how many times a stepper calls `f`. -/
def call (f : ℚ → List GQ → List GQ) (t : ℚ) (y : List GQ) (n : ℕ) :
    List GQ × ℕ :=
  (f t y, n + 1)

/-- `ODESolver._step_euler` with every evaluation of `f` routed through
the counting wrapper `call`. -/
def step_euler_calls (f : ℚ → List GQ → List GQ) (t : ℚ) (y : List GQ)
    (dt : ℚ) (n : ℕ) : List GQ × ℕ :=
  let p1 := call f t y n
  (vadd y (vsmul dt p1.1), p1.2)

/-- `ODESolver._step_rk4` with every evaluation of `f` routed through
the counting wrapper `call`. -/
def step_rk4_calls (f : ℚ → List GQ → List GQ) (t : ℚ) (y : List GQ)
    (dt : ℚ) (n : ℕ) : List GQ × ℕ :=
  let p1 := call f t y n
  let k1 := p1.1
  let p2 := call f (t + dt/2) (vadd y (sdiv (vsmul dt k1) 2)) p1.2
  let k2 := p2.1
  let p3 := call f (t + dt/2) (vadd y (sdiv (vsmul dt k2) 2)) p2.2
  let k3 := p3.1
  let p4 := call f (t + dt) (vadd y (vsmul dt k3)) p3.2
  let k4 := p4.1
  (vadd y (vsmul (dt/6) (vadd (vadd (vadd k1 (vsmul 2 k2)) (vsmul 2 k3)) k4)), p4.2)

/-- The classical RK4 update formula exactly as the specification
states it: `k1 = f(t, y)`, `k2 = f(t + h/2, y + (h/2)*k1)`,
`k3 = f(t + h/2, y + (h/2)*k2)`, `k4 = f(t + h, y + h*k3)`,
`y_next = y + (h/6)*(k1 + 2*k2 + 2*k3 + k4)`. -/
def rk4_spec_formula (f : ℚ → List GQ → List GQ) (t : ℚ) (y : List GQ)
    (h : ℚ) : List GQ :=
  let k1 := f t y
  let k2 := f (t + h/2) (vadd y (vsmul (h/2) k1))
  let k3 := f (t + h/2) (vadd y (vsmul (h/2) k2))
  let k4 := f (t + h) (vadd y (vsmul h k3))
  vadd y (vsmul (h/6) (vadd (vadd (vadd k1 (vsmul 2 k2)) (vsmul 2 k3)) k4))

lemma gq_add (z w : GQ) : z + w = (z.1 + w.1, z.2 + w.2) := rfl

lemma gq_sub (z w : GQ) : z - w = (z.1 - w.1, z.2 - w.2) := rfl

lemma gq_smul (c : ℚ) (z : GQ) : c • z = (c * z.1, c * z.2) := rfl

lemma sdiv_vsmul (c d : ℚ) (v : List GQ) :
    sdiv (vsmul c v) d = vsmul (c / d) v := by
  simp only [sdiv, vsmul, List.map_map]
  refine List.map_congr_left fun z _ => ?_
  simp only [Function.comp_apply, gq_smul]
  refine Prod.ext ?_ ?_ <;> ring

lemma vadd_length (a b : List GQ) :
    (vadd a b).length = min a.length b.length := by
  simp [vadd]

lemma vsub_length (a b : List GQ) :
    (vsub a b).length = min a.length b.length := by
  simp [vsub]

lemma vsmul_length (c : ℚ) (v : List GQ) :
    (vsmul c v).length = v.length := by
  simp [vsmul]

lemma sdiv_length (v : List GQ) (c : ℚ) :
    (sdiv v c).length = v.length := by
  simp [sdiv]

lemma zipWith_self_map (g : GQ → GQ → GQ) (u : GQ → GQ) (l : List GQ) :
    List.zipWith g l (l.map u) = l.map fun z => g z (u z) := by
  induction l with
  | nil => rfl
  | cons x xs ih => simp [ih]

lemma rk4_const_sum (h : ℚ) (c : List GQ) :
    vsmul (h/6) (vadd (vadd (vadd c (vsmul 2 c)) (vsmul 2 c)) c) = vsmul h c := by
  induction c with
  | nil => rfl
  | cons z zs ih =>
    simp only [vsmul, vadd, List.map_cons, List.zipWith_cons_cons] at *
    refine List.cons_eq_cons.mpr ⟨?_, ih⟩
    simp only [gq_smul, gq_add]
    refine Prod.ext ?_ ?_ <;> ring

/-- C1: the RK4 stepper returns exactly
`y + (h/6)*(k1 + 2*k2 + 2*k3 + k4)` with the four classical stages, and
it evaluates the derivative function exactly four times per step: the
instrumented stepper started at any call count `n` finishes at `n + 4`
and returns the same state as `_step_rk4`, which in turn equals the
specification's four-stage formula. -/
theorem rk4_step_formula_and_count (f : ℚ → List GQ → List GQ) (t : ℚ)
    (y : List GQ) (h : ℚ) (n : ℕ) :
    step_rk4_calls f t y h n = (step_rk4 f t y h, n + 4) ∧
    step_rk4 f t y h = rk4_spec_formula f t y h := by
  have hhalf : ∀ v : List GQ, sdiv (vsmul h v) 2 = vsmul (h/2) v :=
    fun v => sdiv_vsmul h 2 v
  refine ⟨?_, ?_⟩
  · simp only [step_rk4_calls, step_rk4, call]
  · simp only [step_rk4, rk4_spec_formula, hhalf]

/-- C2: the Euler stepper returns exactly `y + h * f(t, y)` and
evaluates the derivative function exactly once per step: the
instrumented stepper started at any call count `n` finishes at `n + 1`
and returns the same state as `_step_euler`, which equals
`y + h * f(t, y)`. -/
theorem euler_step_formula_and_count (f : ℚ → List GQ → List GQ) (t : ℚ)
    (y : List GQ) (h : ℚ) (n : ℕ) :
    step_euler_calls f t y h n = (step_euler f t y h, n + 1) ∧
    step_euler f t y h = vadd y (vsmul h (f t y)) :=
  ⟨rfl, rfl⟩

/-- C8: for a constant derivative function `f(t, y) = c`, a single
Euler step and a single RK4 step both return exactly `y + h*c`, so the
two steppers agree on constant derivatives. -/
theorem constant_derivative_exact (c : List GQ) (t : ℚ) (y : List GQ)
    (h : ℚ) :
    step_euler (fun _ _ => c) t y h = vadd y (vsmul h c) ∧
    step_rk4 (fun _ _ => c) t y h = vadd y (vsmul h c) ∧
    step_rk4 (fun _ _ => c) t y h = step_euler (fun _ _ => c) t y h := by
  have heu : step_euler (fun _ _ => c) t y h = vadd y (vsmul h c) := rfl
  have hrk : step_rk4 (fun _ _ => c) t y h = vadd y (vsmul h c) := by
    simp only [step_rk4]
    rw [rk4_const_sum]
  exact ⟨heu, hrk, by rw [heu, hrk]⟩

/-- A Python string, embedded as its list of characters. -/
abbrev PyStr : Type := List Char

/-- Embedding of Python's `str.lower()` (the method names in question
are ASCII). -/
def lower (s : PyStr) : PyStr := s.map Char.toLower

/-- The method name `euler`. -/
def euler_name : PyStr := "euler".toList

/-- The method name `rk4`. -/
def rk4_name : PyStr := "rk4".toList

/-- Embedding of `np.arange(start, stop, step)`: the points
`start + i*step` for `i = 0, 1, ...`, of which there are
`max 0 ⌈(stop - start)/step⌉` (numpy's length rule, exact here because
we compute in `ℚ`). -/
def arange (start stop step : ℚ) : List ℚ :=
  (List.range (⌈(stop - start) / step⌉).toNat).map fun i : ℕ => start + (i : ℚ) * step

/-- The time grid `ODESolver.solve` iterates over: the explicit grid
`t_eval` when one is supplied, otherwise
`np.arange(t0, t_end + dt, dt)`; `none` when uniform mode is requested
but `t_end` or `dt` is missing (in Python, `t_end + dt` then raises a
`TypeError` on `None`). -/
def grid_of (t0 : ℚ) (t_end dt : Option ℚ) (t_eval : Option (List ℚ)) :
    Option (List ℚ) :=
  match t_eval with
  | some te => some te
  | none =>
    match t_end, dt with
    | some b, some d => some (arange t0 (b + d) d)
    | _, _ => none

/-- The `for i in range(1, len(t_eval))` loop of `ODESolver.solve`:
given the previous grid point and current state, advances through the
remaining grid points, choosing the stepper by name at each iteration
(`method.lower() == "euler"` selects Euler, anything else runs RK4) with
the local step size `dt_now = t_now - t_prev`, and collects the
`(t_now, y)` pairs that the loop appends to `ts` and `ys`. -/
def loop (f : ℚ → List GQ → List GQ) (method : PyStr) :
    ℚ → List GQ → List ℚ → List (ℚ × List GQ)
  | _, _, [] => []
  | tprev, y, tnow :: rest =>
    let dtn := tnow - tprev
    let y2 := if lower method = euler_name then step_euler f tprev y dtn
              else step_rk4 f tprev y dtn
    (tnow, y2) :: loop f method tnow y2 rest

/-- Embedding of `ODESolver.solve`.  The solver object's fields `f`,
`t0` and the normalized initial array `y0` are passed explicitly.
Returns `none` where the Python code raises: when uniform mode lacks
`t_end` or `dt`, or when the grid is empty (then `t_eval[0]` raises an
`IndexError`).  Otherwise returns the pair `(ts, ys)` of the time list
and the state list (`np.vstack` merely stacks `ys` into a matrix). -/
def solve (f : ℚ → List GQ → List GQ) (t0 : ℚ) (y0 : List GQ)
    (t_end dt : Option ℚ) (t_eval : Option (List ℚ)) (method : PyStr) :
    Option (List ℚ × List (List GQ)) :=
  match grid_of t0 t_end dt t_eval with
  | none => none
  | some [] => none
  | some (g0 :: rest) =>
    let tail := loop f method g0 y0 rest
    some (g0 :: tail.map Prod.fst, y0 :: tail.map fun p => p.2)

/-- Embedding of `nth_order_to_system(g, n)`: the returned derivative
function `F` with `out[:-1] = Y[1:]` and `out[-1] = g(t, *Y)`.  The
variadic call `g(t, *Y)` is modelled by passing the component list to
`g`.  On an empty state the Python code raises an `IndexError`
(`out[-1]` on an empty array), hence `none`; the order `n` is captured
by the closure but never used by `F`, exactly as in the source. -/
def nth_order_to_system (g : ℚ → List GQ → GQ) (n : ℕ) :
    ℚ → List GQ → Option (List GQ) :=
  fun t Y =>
    match Y with
    | [] => none
    | y0 :: ytl => some (ytl ++ [g t (y0 :: ytl)])

lemma loop_map_fst (f : ℚ → List GQ → List GQ) (method : PyStr) :
    ∀ (l : List ℚ) (tprev : ℚ) (y : List GQ),
      (loop f method tprev y l).map Prod.fst = l := by
  intro l
  induction l with
  | nil => intro tprev y; rfl
  | cons tnow rest ih => intro tprev y; simp [loop, ih]

lemma loop_length (f : ℚ → List GQ → List GQ) (method : PyStr)
    (l : List ℚ) (tprev : ℚ) (y : List GQ) :
    (loop f method tprev y l).length = l.length := by
  have h := congrArg List.length (loop_map_fst f method l tprev y)
  simpa using h

lemma solve_eq_of_grid (f : ℚ → List GQ → List GQ) (t0 : ℚ)
    (y0 : List GQ) (t_end dt : Option ℚ) (t_eval : Option (List ℚ))
    (method : PyStr) (g0 : ℚ) (rest : List ℚ)
    (hg : grid_of t0 t_end dt t_eval = some (g0 :: rest)) :
    solve f t0 y0 t_end dt t_eval method =
      some (g0 :: rest,
        y0 :: (loop f method g0 y0 rest).map fun p => p.2) := by
  simp [solve, hg, loop_map_fst]

lemma solve_some_inv (f : ℚ → List GQ → List GQ) (t0 : ℚ)
    (y0 : List GQ) (t_end dt : Option ℚ) (t_eval : Option (List ℚ))
    (method : PyStr) (ts : List ℚ) (ys : List (List GQ))
    (h : solve f t0 y0 t_end dt t_eval method = some (ts, ys)) :
    ∃ g0 rest, grid_of t0 t_end dt t_eval = some (g0 :: rest) ∧
      ts = g0 :: rest ∧
      ys = y0 :: (loop f method g0 y0 rest).map fun p => p.2 := by
  rcases hg : grid_of t0 t_end dt t_eval with _ | g
  · simp [solve, hg] at h
  · rcases g with _ | ⟨g0, rest⟩
    · simp [solve, hg] at h
    · have heq :=
        (solve_eq_of_grid f t0 y0 t_end dt t_eval method g0 rest hg).symm.trans h
      have h2 := Option.some.inj heq
      exact ⟨g0, rest, rfl, (congrArg Prod.fst h2).symm,
        (congrArg Prod.snd h2).symm⟩

lemma step_euler_length (f : ℚ → List GQ → List GQ)
    (hf : ∀ t y, (f t y).length = y.length) (t : ℚ) (y : List GQ)
    (dt : ℚ) : (step_euler f t y dt).length = y.length := by
  simp [step_euler, vadd_length, vsmul_length, hf]

lemma step_rk4_length (f : ℚ → List GQ → List GQ)
    (hf : ∀ t y, (f t y).length = y.length) (t : ℚ) (y : List GQ)
    (dt : ℚ) : (step_rk4 f t y dt).length = y.length := by
  simp [step_rk4, vadd_length, vsmul_length, sdiv_length, hf]

lemma loop_state_length (f : ℚ → List GQ → List GQ) (method : PyStr)
    (hf : ∀ t y, (f t y).length = y.length) :
    ∀ (l : List ℚ) (tprev : ℚ) (y : List GQ),
      ∀ p ∈ loop f method tprev y l, p.2.length = y.length := by
  intro l
  induction l with
  | nil => intro tprev y p hp; simp [loop] at hp
  | cons tnow rest ih =>
    intro tprev y p hp
    simp only [loop, List.mem_cons] at hp
    rcases hp with hp | hp
    · subst hp
      by_cases hm : lower method = euler_name
      · simp only [if_pos hm]
        exact step_euler_length f hf _ _ _
      · simp only [if_neg hm]
        exact step_rk4_length f hf _ _ _
    · have h2 := ih tnow _ p hp
      rw [h2]
      by_cases hm : lower method = euler_name
      · simp only [if_pos hm]
        exact step_euler_length f hf _ _ _
      · simp only [if_neg hm]
        exact step_rk4_length f hf _ _ _

/-- C5: for every run of the integrator, in either grid mode and with
either method, the returned trajectory `ys` together with the time list
`ts` satisfies: `ys` has one entry per grid point, i.e. its length is
the number of steps taken (`ts.length - 1`, one step per grid point
after the first) plus one; its first state is the initial condition
`y0`; and, provided the derivative function respects its contract of
returning arrays of the shape of its input, every state has the same
dimension as `y0`. -/
theorem solve_trajectory_invariants (f : ℚ → List GQ → List GQ)
    (t0 : ℚ) (y0 : List GQ) (t_end dt : Option ℚ)
    (t_eval : Option (List ℚ)) (method : PyStr) (ts : List ℚ)
    (ys : List (List GQ))
    (hf : ∀ t y, (f t y).length = y.length)
    (h : solve f t0 y0 t_end dt t_eval method = some (ts, ys)) :
    ys.length = (ts.length - 1) + 1 ∧ ys.length = ts.length ∧
      ys.head? = some y0 ∧ ∀ s ∈ ys, s.length = y0.length := by
  obtain ⟨g0, rest, hg, hts, hys⟩ :=
    solve_some_inv f t0 y0 t_end dt t_eval method ts ys h
  subst hts; subst hys
  refine ⟨?_, ?_, rfl, ?_⟩
  · simp [loop_length]
  · simp [loop_length]
  · intro s hs
    simp only [List.mem_cons, List.mem_map] at hs
    rcases hs with hs | ⟨p, hp, hps⟩
    · rw [hs]
    · rw [← hps]
      exact loop_state_length f method hf rest g0 y0 p hp

lemma real_vadd (a b : List GQ) (ha : real_state a) (hb : real_state b) :
    real_state (vadd a b) := by
  induction a generalizing b with
  | nil => intro z hz; simp [vadd] at hz
  | cons x xs ih =>
    cases b with
    | nil => intro z hz; simp [vadd] at hz
    | cons w ws =>
      intro z hz
      simp only [vadd, List.zipWith_cons_cons, List.mem_cons] at hz
      rcases hz with hz | hz
      · subst hz
        have hx := ha x (by simp)
        have hw := hb w (by simp)
        simp [gq_add, hx, hw]
      · exact ih ws (fun u hu => ha u (by simp [hu]))
          (fun u hu => hb u (by simp [hu])) z hz

lemma real_vsmul (c : ℚ) (v : List GQ) (hv : real_state v) :
    real_state (vsmul c v) := by
  intro z hz
  simp only [vsmul, List.mem_map] at hz
  obtain ⟨w, hw, hwz⟩ := hz
  rw [← hwz]
  simp [gq_smul, hv w hw]

lemma real_sdiv (v : List GQ) (c : ℚ) (hv : real_state v) :
    real_state (sdiv v c) := by
  intro z hz
  simp only [sdiv, List.mem_map] at hz
  obtain ⟨w, hw, hwz⟩ := hz
  rw [← hwz]
  simp [gq_smul, hv w hw]

lemma real_step_euler (f : ℚ → List GQ → List GQ)
    (hf : ∀ t y, real_state (f t y)) (t : ℚ) (y : List GQ) (dt : ℚ)
    (hy : real_state y) : real_state (step_euler f t y dt) :=
  real_vadd _ _ hy (real_vsmul _ _ (hf _ _))

lemma real_step_rk4 (f : ℚ → List GQ → List GQ)
    (hf : ∀ t y, real_state (f t y)) (t : ℚ) (y : List GQ) (dt : ℚ)
    (hy : real_state y) : real_state (step_rk4 f t y dt) := by
  simp only [step_rk4]
  exact real_vadd _ _ hy (real_vsmul _ _ (real_vadd _ _
    (real_vadd _ _ (real_vadd _ _ (hf _ _) (real_vsmul _ _ (hf _ _)))
      (real_vsmul _ _ (hf _ _))) (hf _ _)))

lemma real_loop (f : ℚ → List GQ → List GQ) (method : PyStr)
    (hf : ∀ t y, real_state (f t y)) :
    ∀ (l : List ℚ) (tprev : ℚ) (y : List GQ), real_state y →
      ∀ p ∈ loop f method tprev y l, real_state p.2 := by
  intro l
  induction l with
  | nil => intro tprev y _ p hp; simp [loop] at hp
  | cons tnow rest ih =>
    intro tprev y hy p hp
    simp only [loop, List.mem_cons] at hp
    have hy2 : real_state (if lower method = euler_name then
        step_euler f tprev y (tnow - tprev)
      else step_rk4 f tprev y (tnow - tprev)) := by
      by_cases hm : lower method = euler_name
      · simp only [if_pos hm]; exact real_step_euler f hf _ _ _ hy
      · simp only [if_neg hm]; exact real_step_rk4 f hf _ _ _ hy
    rcases hp with hp | hp
    · subst hp; exact hy2
    · exact ih tnow _ hy2 p hp

/-- C7 (amended): the numeric kind of the trajectory is not fixed at
construction regardless of the derivative function; what holds is that
when the derivative function returns real-kind values, every state of a
run started from a real-kind `y0` is real-kind.  (The counterexample
`kind_not_fixed_counterexample` shows an imaginary-valued derivative
promoting a real initial condition to a complex state.) -/
theorem kind_preserved_for_real_derivatives (f : ℚ → List GQ → List GQ)
    (t0 : ℚ) (y0 : List GQ) (t_end dt : Option ℚ)
    (t_eval : Option (List ℚ)) (method : PyStr) (ts : List ℚ)
    (ys : List (List GQ))
    (hf : ∀ t y, real_state (f t y)) (hy : real_state y0)
    (h : solve f t0 y0 t_end dt t_eval method = some (ts, ys)) :
    ∀ s ∈ ys, real_state s := by
  obtain ⟨g0, rest, hg, hts, hys⟩ :=
    solve_some_inv f t0 y0 t_end dt t_eval method ts ys h
  subst hys
  intro s hs
  simp only [List.mem_cons, List.mem_map] at hs
  rcases hs with hs | ⟨p, hp, hps⟩
  · rw [hs]; exact hy
  · rw [← hps]
    exact real_loop f method hf rest g0 y0 hy p hp

/-- A derivative function returning a purely imaginary constant, used
to exhibit numeric-kind promotion. -/
def f_imag : ℚ → List GQ → List GQ := fun _ _ => [((0 : ℚ), (1 : ℚ))]

/-- C7 counterexample: with real initial condition `[1]` and the
derivative function constantly `[i]`, one Euler step of size 1 produces
the state `[1 + i]`, whose numeric kind is complex although the initial
condition's kind is real — the kind of the trajectory is not that of
`y0` and is not fixed at construction. -/
theorem kind_not_fixed_counterexample :
    solve f_imag 0 [((1 : ℚ), (0 : ℚ))] none none (some [0, 1])
        euler_name =
      some ([0, 1], [[((1 : ℚ), (0 : ℚ))], [((1 : ℚ), (1 : ℚ))]]) ∧
    real_state [((1 : ℚ), (0 : ℚ))] ∧
    ¬ real_state [((1 : ℚ), (1 : ℚ))] := by
  have hm : lower euler_name = euler_name := by decide
  refine ⟨?_, ?_, ?_⟩
  · simp [solve, grid_of, loop, hm, step_euler, f_imag, vadd, vsmul,
      gq_smul, gq_add]
  · intro z hz
    simp only [List.mem_singleton] at hz
    rw [hz]
  · intro hcontra
    have h1 := hcontra ((1 : ℚ), (1 : ℚ)) (by simp)
    norm_num at h1

lemma loop_default_rk4 (f : ℚ → List GQ → List GQ) (m : PyStr)
    (hm : lower m ≠ euler_name) :
    ∀ (l : List ℚ) (tprev : ℚ) (y : List GQ),
      loop f m tprev y l = loop f rk4_name tprev y l := by
  have hr : lower rk4_name ≠ euler_name := by decide
  intro l
  induction l with
  | nil => intro tprev y; rfl
  | cons tnow rest ih =>
    intro tprev y
    simp only [loop, if_neg hm, if_neg hr]
    rw [ih]

/-- C3 (amended): the code raises no error for an unrecognized method
name; every method name whose lowercase form is not `euler` silently
runs the RK4 stepper, so the run is identical to an explicit `rk4`
run.  (The claimed `UnknownMethodError` does not exist in the code; see
`unknown_method_counterexample`.) -/
theorem unknown_method_runs_rk4 (f : ℚ → List GQ → List GQ) (t0 : ℚ)
    (y0 : List GQ) (t_end dt : Option ℚ) (t_eval : Option (List ℚ))
    (m : PyStr) (hm : lower m ≠ euler_name) :
    solve f t0 y0 t_end dt t_eval m =
      solve f t0 y0 t_end dt t_eval rk4_name := by
  rcases hg : grid_of t0 t_end dt t_eval with _ | (_ | ⟨g0, rest⟩)
  · simp [solve, hg]
  · simp [solve, hg]
  · simp [solve, hg, loop_default_rk4 f m hm rest g0 y0]

/-- A derivative function depending on time only, whose Euler and RK4
steps differ. -/
def f_time : ℚ → List GQ → List GQ := fun t _ => [((t : ℚ), (0 : ℚ))]

/-- The unrecognized method name `midpoint`. -/
def midpoint_name : PyStr := "midpoint".toList

/-- C3 counterexample: running the integrator with the unrecognized
method name `midpoint` does not raise — it returns exactly the result
of an `rk4` run (silent default), which moreover differs from the
`euler` run, so the fallback genuinely selected RK4. -/
theorem unknown_method_counterexample :
    solve f_time 0 [((0 : ℚ), (0 : ℚ))] none none (some [0, 1])
        midpoint_name =
      solve f_time 0 [((0 : ℚ), (0 : ℚ))] none none (some [0, 1])
        rk4_name ∧
    solve f_time 0 [((0 : ℚ), (0 : ℚ))] none none (some [0, 1])
        midpoint_name ≠
      solve f_time 0 [((0 : ℚ), (0 : ℚ))] none none (some [0, 1])
        euler_name := by
  have hm : ¬ (lower midpoint_name = euler_name) := by decide
  have hr : ¬ (lower rk4_name = euler_name) := by decide
  have he : lower euler_name = euler_name := by decide
  have hrk : solve f_time 0 [((0 : ℚ), (0 : ℚ))] none none
      (some [0, 1]) midpoint_name =
      some ([0, 1], [[((0 : ℚ), (0 : ℚ))], [((1/2 : ℚ), (0 : ℚ))]]) := by
    simp [solve, grid_of, loop, hm, step_rk4, f_time, vadd, vsmul, sdiv,
      gq_smul, gq_add]
    norm_num
  have heu : solve f_time 0 [((0 : ℚ), (0 : ℚ))] none none
      (some [0, 1]) euler_name =
      some ([0, 1], [[((0 : ℚ), (0 : ℚ))], [((0 : ℚ), (0 : ℚ))]]) := by
    simp [solve, grid_of, loop, he, step_euler, f_time, vadd, vsmul,
      gq_smul, gq_add]
  have hrk2 : solve f_time 0 [((0 : ℚ), (0 : ℚ))] none none
      (some [0, 1]) rk4_name =
      some ([0, 1], [[((0 : ℚ), (0 : ℚ))], [((1/2 : ℚ), (0 : ℚ))]]) := by
    simp [solve, grid_of, loop, hr, step_rk4, f_time, vadd, vsmul, sdiv,
      gq_smul, gq_add]
    norm_num
  refine ⟨hrk.trans hrk2.symm, ?_⟩
  rw [hrk, heu]
  intro hcontra
  have h2 := Option.some.inj hcontra
  have h3 := congrArg Prod.snd h2
  simp only [List.cons.injEq, Prod.mk.injEq] at h3
  exact absurd h3.2.1.1.1 (by norm_num)

/-- C3 witness for `unknown_method_runs_rk4` at the concrete method
name `midpoint`. -/
theorem unknown_method_runs_rk4_witness :
    lower midpoint_name ≠ euler_name ∧
    solve f_time 0 [((0 : ℚ), (0 : ℚ))] none none (some [0, 1])
        midpoint_name =
      solve f_time 0 [((0 : ℚ), (0 : ℚ))] none none (some [0, 1])
        rk4_name :=
  ⟨by decide,
    unknown_method_runs_rk4 f_time 0 [((0 : ℚ), (0 : ℚ))] none none
      (some [0, 1]) midpoint_name (by decide)⟩

/-- C10: in explicit-grid mode the solver ignores the constructor's
`t0` as well as `t_end` and `dt` entirely — two runs differing in all
three produce identical results — and the first trajectory entry pairs
`t_eval[0]` with the initial condition `y0` even when `t_eval[0]`
differs from `t0`. -/
theorem explicit_grid_ignores_constructor (f : ℚ → List GQ → List GQ)
    (y0 : List GQ) (method : PyStr) (tv : ℚ) (rest : List ℚ)
    (t0 t0' : ℚ) (t_end t_end' dt dt' : Option ℚ) :
    solve f t0 y0 t_end dt (some (tv :: rest)) method =
      solve f t0' y0 t_end' dt' (some (tv :: rest)) method ∧
    (solve f t0 y0 t_end dt (some (tv :: rest)) method).map
        (fun p => (p.1.head?, p.2.head?)) =
      some (some tv, some y0) :=
  ⟨rfl, rfl⟩

lemma arange_uniform (t0 d : ℚ) (n : ℕ) (hd : 0 < d) :
    arange t0 (t0 + n * d + d) d =
      (List.range (n + 1)).map fun i : ℕ => t0 + (i : ℚ) * d := by
  have hd' : d ≠ 0 := ne_of_gt hd
  have h1 : (t0 + n * d + d - t0) / d = ((n + 1 : ℕ) : ℚ) := by
    field_simp
    ring
  simp only [arange, h1, Int.ceil_natCast, Int.toNat_natCast]

/-- C4: in uniform mode with start `t0`, end `t_end = t0 + n*dt` and
step `dt > 0`, the integrator generates the time grid
`t0, t0 + dt, ..., t0 + n*dt` of exactly `n+1` points, which contains
both endpoints, and the times array returned by `solve` is exactly that
grid, of length `n+1`. -/
theorem uniform_grid_endpoints (t0 d : ℚ) (n : ℕ)
    (f : ℚ → List GQ → List GQ) (y0 : List GQ) (method : PyStr)
    (hd : 0 < d) :
    ∃ ys, solve f t0 y0 (some (t0 + n * d)) (some d) none method =
        some ((List.range (n + 1)).map (fun i : ℕ => t0 + (i : ℚ) * d), ys) ∧
      ((List.range (n + 1)).map fun i : ℕ => t0 + (i : ℚ) * d).length =
        n + 1 ∧
      t0 ∈ (List.range (n + 1)).map (fun i : ℕ => t0 + (i : ℚ) * d) ∧
      (t0 + n * d) ∈
        (List.range (n + 1)).map (fun i : ℕ => t0 + (i : ℚ) * d) := by
  have hgrid : grid_of t0 (some (t0 + n * d)) (some d) none =
      some ((List.range (n + 1)).map fun i : ℕ => t0 + (i : ℚ) * d) := by
    simp only [grid_of]
    rw [arange_uniform t0 d n hd]
  have hdecomp : (List.range (n + 1)).map (fun i : ℕ => t0 + (i : ℚ) * d) =
      (t0 + (0 : ℕ) * d) ::
        ((List.range n).map Nat.succ).map (fun i : ℕ => t0 + (i : ℚ) * d) := by
    rw [List.range_succ_eq_map, List.map_cons]
  rw [hdecomp] at hgrid
  have hsol := solve_eq_of_grid f t0 y0 (some (t0 + n * d)) (some d)
    none method _ _ hgrid
  rw [← hdecomp] at hsol
  refine ⟨_, hsol, ?_, ?_, ?_⟩
  · simp
  · simp only [List.mem_map, List.mem_range]
    exact ⟨0, by simp⟩
  · simp only [List.mem_map, List.mem_range]
    exact ⟨n, by simp⟩

/-- C4 witness for `uniform_grid_endpoints` at `t0 = 0`, `dt = 1`,
`n = 2`. -/
theorem uniform_grid_endpoints_witness :
    (0 : ℚ) < 1 ∧
    ∃ ys, solve f_time 0 [((0 : ℚ), (0 : ℚ))] (some ((0 : ℚ) + (2 : ℕ) * 1))
        (some 1) none rk4_name =
        some ((List.range (2 + 1)).map (fun i : ℕ => (0 : ℚ) + (i : ℚ) * 1), ys) ∧
      ((List.range (2 + 1)).map fun i : ℕ => (0 : ℚ) + (i : ℚ) * 1).length =
        2 + 1 ∧
      (0 : ℚ) ∈ (List.range (2 + 1)).map (fun i : ℕ => (0 : ℚ) + (i : ℚ) * 1) ∧
      ((0 : ℚ) + (2 : ℕ) * 1) ∈
        (List.range (2 + 1)).map (fun i : ℕ => (0 : ℚ) + (i : ℚ) * 1) :=
  ⟨by norm_num,
    uniform_grid_endpoints 0 1 2 f_time [((0 : ℚ), (0 : ℚ))] rk4_name
      (by norm_num)⟩

/-- C6: for every `g`, order `n ≥ 1`, time `t` and state `Y` of
dimension `n`, the derivative function produced by
`nth_order_to_system` returns a vector `F` of dimension `n` with
`F[i] = Y[i+1]` for `i = 0 .. n-2` and `F[n-1] = g(t, Y[0], ..., Y[n-1])`
(the variadic call `g(t, *Y)` passes all components of `Y` to `g`). -/
theorem nth_order_reduction (g : ℚ → List GQ → GQ) (n : ℕ) (t : ℚ)
    (Y : List GQ) (hn : 1 ≤ n) (hY : Y.length = n) :
    ∃ F, nth_order_to_system g n t Y = some F ∧ F.length = n ∧
      (∀ i : ℕ, i + 1 < n → F[i]? = Y[i + 1]?) ∧
      F[n - 1]? = some (g t Y) := by
  cases Y with
  | nil => simp at hY; omega
  | cons y0 ytl =>
    have hlen : ytl.length + 1 = n := by simpa using hY
    refine ⟨ytl ++ [g t (y0 :: ytl)], rfl, ?_, ?_, ?_⟩
    · simp; omega
    · intro i hi
      have hilt : i < ytl.length := by omega
      rw [List.getElem?_append_left hilt, List.getElem?_cons_succ]
    · have hidx : n - 1 = ytl.length := by omega
      rw [hidx]
      exact List.getElem?_concat_length ytl (g t (y0 :: ytl))

/-- C6 witness for `nth_order_reduction` at `n = 2`,
`g(t, y, v) = -y` and `Y = [3, 5]` (harmonic oscillator reduction). -/
theorem nth_order_reduction_witness :
    1 ≤ 2 ∧ ([((3 : ℚ), (0 : ℚ)), ((5 : ℚ), (0 : ℚ))] : List GQ).length = 2 ∧
    ∃ F, nth_order_to_system (fun _ Y => -(Y.getD 0 0)) 2 0
          [((3 : ℚ), (0 : ℚ)), ((5 : ℚ), (0 : ℚ))] = some F ∧
        F.length = 2 ∧
        (∀ i : ℕ, i + 1 < 2 →
          F[i]? = ([((3 : ℚ), (0 : ℚ)), ((5 : ℚ), (0 : ℚ))] : List GQ)[i + 1]?) ∧
        F[2 - 1]? =
          some ((fun (_ : ℚ) (Y : List GQ) => -(Y.getD 0 0)) 0
            [((3 : ℚ), (0 : ℚ)), ((5 : ℚ), (0 : ℚ))]) :=
  ⟨by norm_num, rfl,
    nth_order_reduction (fun _ Y => -(Y.getD 0 0)) 2 0
      [((3 : ℚ), (0 : ℚ)), ((5 : ℚ), (0 : ℚ))] (by norm_num) rfl⟩

/-- Modelled from the spec: the query function of the
SolutionInterpolant component (`make_interpolant` has no implementation
under `src/`).  Given the sampled `(x_i, y_i)` pairs, a query `x` is
answered by standard piecewise-linear interpolation between the
bracketing sample points, `y_lo + ((x - x_lo)/(x_hi - x_lo))*(y_hi - y_lo)`
componentwise, and queries outside the sampled span are clamped to the
boundary sample value. -/
def interp_pairs (x : ℚ) : List (ℚ × List GQ) → List GQ
  | [] => []
  | [(_, y)] => y
  | (t1, y1) :: (t2, y2) :: rest =>
    if x ≤ t1 then y1
    else if x ≤ t2 then
      vadd y1 (vsmul ((x - t1) / (t2 - t1)) (vsub y2 y1))
    else interp_pairs x ((t2, y2) :: rest)

/-- Modelled from the spec: `make_interpolant(times, states)` builds
the callable that interpolates the sampled trajectory at a query
point (see `interp_pairs`). -/
def make_interpolant (times : List ℚ) (states : List (List GQ)) :
    ℚ → List GQ :=
  fun x => interp_pairs x (times.zip states)

lemma lerp_one (a b : List GQ) (hab : a.length = b.length) :
    vadd a (vsmul 1 (vsub b a)) = b := by
  induction a generalizing b with
  | nil =>
    cases b with
    | nil => rfl
    | cons w ws => simp at hab
  | cons z zs ih =>
    cases b with
    | nil => simp at hab
    | cons w ws =>
      simp only [vadd, vsub, vsmul, List.zipWith_cons_cons, List.map_cons]
      refine List.cons_eq_cons.mpr ⟨?_, ?_⟩
      · simp only [gq_smul, gq_sub, gq_add]
        refine Prod.ext ?_ ?_ <;> ring
      · exact ih ws (by simpa using hab)

lemma interp_pairs_knot (dim : ℕ) :
    ∀ (ps : List (ℚ × List GQ)) (i : ℕ), i < ps.length →
      (ps.map Prod.fst).Pairwise (· < ·) →
      (∀ p ∈ ps, p.2.length = dim) →
      interp_pairs ((ps.getD i ((0 : ℚ), ([] : List GQ))).1) ps =
        (ps.getD i ((0 : ℚ), ([] : List GQ))).2 := by
  intro ps
  induction ps with
  | nil => intro i hi; simp at hi
  | cons p1 tl ih =>
    rcases p1 with ⟨t1, y1⟩
    cases tl with
    | nil =>
      intro i hi _ _
      have hi0 : i = 0 := by simpa using hi
      subst hi0
      simp [interp_pairs]
    | cons p2 tl2 =>
      rcases p2 with ⟨t2, y2⟩
      intro i hi hsort hdim
      obtain ⟨hhead, htail⟩ := List.pairwise_cons.mp hsort
      cases i with
      | zero =>
        simp [interp_pairs]
      | succ j =>
        have hj : j < ((t2, y2) :: tl2).length := by simpa using hi
        have hmem : ((t2, y2) :: tl2).getD j ((0 : ℚ), ([] : List GQ)) ∈
            (t2, y2) :: tl2 := by
          rw [List.getD_eq_getElem _ _ hj]
          exact List.getElem_mem hj
        have hfstmem :
            (((t2, y2) :: tl2).getD j ((0 : ℚ), ([] : List GQ))).1 ∈
              ((t2, y2) :: tl2).map Prod.fst :=
          List.mem_map_of_mem Prod.fst hmem
        have ht1x : t1 <
            (((t2, y2) :: tl2).getD j ((0 : ℚ), ([] : List GQ))).1 := by
          apply hhead
          simpa using hfstmem
        rw [List.getD_cons_succ]
        simp only [interp_pairs]
        rw [if_neg (not_le.mpr ht1x)]
        cases j with
        | zero =>
          simp only [List.getD_cons_zero] at ht1x ⊢
          rw [if_pos le_rfl]
          have hne : t2 - t1 ≠ 0 := sub_ne_zero.mpr (ne_of_gt ht1x)
          rw [div_self hne]
          exact lerp_one y1 y2
            ((hdim (t1, y1) (by simp)).trans
              (hdim (t2, y2) (by simp)).symm)
        | succ k =>
          have hk : k < tl2.length := by simpa using hj
          have hmem2 : tl2.getD k ((0 : ℚ), ([] : List GQ)) ∈ tl2 := by
            rw [List.getD_eq_getElem _ _ hk]
            exact List.getElem_mem hk
          have ht2x : t2 < (tl2.getD k ((0 : ℚ), ([] : List GQ))).1 := by
            apply List.rel_of_pairwise_cons htail
            exact List.mem_map_of_mem Prod.fst hmem2
          rw [List.getD_cons_succ]
          rw [if_neg (not_le.mpr ht2x)]
          have h5 := ih (k + 1) hj htail fun p hp => hdim p (by simp [hp])
          rw [List.getD_cons_succ] at h5
          exact h5

/-- C9: for every trajectory given by strictly increasing knot times
and states of a common dimension, the interpolant built by
`make_interpolant(times, states)`, queried exactly at `times[i]`,
returns `states[i]` — exact reproduction at the knot points. -/
theorem interpolant_knot_reproduction (times : List ℚ)
    (states : List (List GQ)) (dim i : ℕ)
    (hlen : times.length = states.length)
    (hsort : times.Pairwise (· < ·))
    (hdim : ∀ s ∈ states, s.length = dim)
    (hi : i < times.length) :
    make_interpolant times states (times.getD i 0) =
      states.getD i [] := by
  have hzlen : (times.zip states).length = times.length := by
    simp [hlen]
  have hzi : i < (times.zip states).length := by omega
  have hmapfst : (times.zip states).map Prod.fst = times :=
    List.map_fst_zip _ _ (le_of_eq hlen)
  have hgetD : (times.zip states).getD i ((0 : ℚ), ([] : List GQ)) =
      (times.getD i 0, states.getD i []) := by
    rw [List.getD_eq_getElem _ _ hzi, List.getElem_zip,
      List.getD_eq_getElem _ _ hi,
      List.getD_eq_getElem _ _ (by omega : i < states.length)]
  have hdims : ∀ p ∈ times.zip states, p.2.length = dim := by
    intro p hp
    rcases p with ⟨a, b⟩
    exact hdim b (List.of_mem_zip hp).2
  have h := interp_pairs_knot dim (times.zip states) i hzi
    (hmapfst.symm ▸ hsort) hdims
  rw [hgetD] at h
  exact h

/-- C9 witness for `interpolant_knot_reproduction` at the trajectory
`times = [0, 1]`, `states = [[5], [7]]`, queried at the knot `times[1]`. -/
theorem interpolant_knot_reproduction_witness :
    ([(0 : ℚ), 1].length = ([[((5 : ℚ), (0 : ℚ))], [((7 : ℚ), (0 : ℚ))]] :
        List (List GQ)).length) ∧
    ([(0 : ℚ), 1].Pairwise (· < ·)) ∧
    (∀ s ∈ ([[((5 : ℚ), (0 : ℚ))], [((7 : ℚ), (0 : ℚ))]] : List (List GQ)),
      s.length = 1) ∧
    make_interpolant [(0 : ℚ), 1] [[((5 : ℚ), (0 : ℚ))], [((7 : ℚ), (0 : ℚ))]]
        ([(0 : ℚ), 1].getD 1 0) =
      ([[((5 : ℚ), (0 : ℚ))], [((7 : ℚ), (0 : ℚ))]] : List (List GQ)).getD 1 [] := by
  have hdim : ∀ s ∈ ([[((5 : ℚ), (0 : ℚ))], [((7 : ℚ), (0 : ℚ))]] :
      List (List GQ)), s.length = 1 := by
    intro s hs
    rcases List.mem_cons.mp hs with h | h
    · simp [h]
    · simp [List.mem_singleton.mp h]
  exact ⟨rfl, by norm_num, hdim,
    interpolant_knot_reproduction [(0 : ℚ), 1]
      [[((5 : ℚ), (0 : ℚ))], [((7 : ℚ), (0 : ℚ))]] 1 1 rfl (by norm_num)
      hdim (by norm_num)⟩

/-- C5 witness for `solve_trajectory_invariants`: the identity
derivative function on the one-point grid `[0]`. -/
theorem solve_trajectory_invariants_witness :
    (∀ (t : ℚ) (y : List GQ),
      ((fun (_ : ℚ) (y : List GQ) => y) t y).length = y.length) ∧
    solve (fun _ y => y) 0 [((1 : ℚ), (0 : ℚ))] none none (some [0])
        rk4_name =
      some ([0], [[((1 : ℚ), (0 : ℚ))]]) ∧
    (([[((1 : ℚ), (0 : ℚ))]] : List (List GQ)).length =
        (([(0 : ℚ)] : List ℚ).length - 1) + 1 ∧
      ([[((1 : ℚ), (0 : ℚ))]] : List (List GQ)).length =
        ([(0 : ℚ)] : List ℚ).length ∧
      ([[((1 : ℚ), (0 : ℚ))]] : List (List GQ)).head? =
        some [((1 : ℚ), (0 : ℚ))] ∧
      ∀ s ∈ ([[((1 : ℚ), (0 : ℚ))]] : List (List GQ)),
        s.length = ([((1 : ℚ), (0 : ℚ))] : List GQ).length) :=
  ⟨fun _ _ => rfl, rfl,
    solve_trajectory_invariants (fun _ y => y) 0 [((1 : ℚ), (0 : ℚ))]
      none none (some [0]) rk4_name [0] [[((1 : ℚ), (0 : ℚ))]]
      (fun _ _ => rfl) rfl⟩

/-- A constant real-valued derivative function, used as a witness
instance. -/
def f_one : ℚ → List GQ → List GQ := fun _ _ => [((1 : ℚ), (0 : ℚ))]

/-- C7 witness for `kind_preserved_for_real_derivatives`: the constant
real derivative `[1]` on the grid `[0, 1]` starting from the real state
`[2]`. -/
theorem kind_preserved_for_real_derivatives_witness :
    (∀ (t : ℚ) (y : List GQ), real_state (f_one t y)) ∧
    real_state [((2 : ℚ), (0 : ℚ))] ∧
    solve f_one 0 [((2 : ℚ), (0 : ℚ))] none none (some [0, 1])
        rk4_name =
      some ([0, 1], [[((2 : ℚ), (0 : ℚ))], [((3 : ℚ), (0 : ℚ))]]) ∧
    ∀ s ∈ ([[((2 : ℚ), (0 : ℚ))], [((3 : ℚ), (0 : ℚ))]] : List (List GQ)),
      real_state s := by
  have hf : ∀ (t : ℚ) (y : List GQ), real_state (f_one t y) := by
    intro t y z hz
    simp only [f_one, List.mem_singleton] at hz
    rw [hz]
  have hy : real_state [((2 : ℚ), (0 : ℚ))] := by
    intro z hz
    simp only [List.mem_singleton] at hz
    rw [hz]
  have hr : ¬ (lower rk4_name = euler_name) := by decide
  have hrun : solve f_one 0 [((2 : ℚ), (0 : ℚ))] none none (some [0, 1])
      rk4_name =
      some ([0, 1], [[((2 : ℚ), (0 : ℚ))], [((3 : ℚ), (0 : ℚ))]]) := by
    simp [solve, grid_of, loop, hr, step_rk4, f_one, vadd, vsmul, sdiv,
      gq_smul, gq_add]
    norm_num
  exact ⟨hf, hy, hrun,
    kind_preserved_for_real_derivatives f_one 0 [((2 : ℚ), (0 : ℚ))]
      none none (some [0, 1]) rk4_name [0, 1]
      [[((2 : ℚ), (0 : ℚ))], [((3 : ℚ), (0 : ℚ))]] hf hy hrun⟩

end ODE
